import Mathlib

/-!
Verification of the tag-resolution core of docker-tag-enhancer
(src/run.py): version parsing, serialization, comparison, and the
grouping/aggregation pipeline that computes floating alias tags.

The embedding works on lists of characters; every definition is a direct
transliteration of the corresponding Python code in src/run.py.  Version
identifiers are modelled exactly like the Python dicts returned by
parse_version: every field holds the matched substring of the source
regex (or none when the group did not participate), and numeric
interpretation happens only inside compare_version, as in the source.
-/

abbrev LC := List Char

/-- One numeric token of the version regex, pattern 0|[1-9][0-9]* .
Returns the matched digits and the remaining input.  A leading zero can
only match as the single literal "0"; a longer match is maximal-munch,
which is exactly what the backtracking regex engine accepts here because
every context following a numeric group requires a non-digit. -/
def takeDigits : LC → LC × LC
  | [] => ([], [])
  | c :: cs =>
    if c.isDigit then
      let p := takeDigits cs
      (c :: p.1, p.2)
    else ([], c :: cs)

def takeNum : LC → Option (LC × LC)
  | [] => none
  | c :: cs =>
    if c = '0' then some ([c], cs)
    else if c.isDigit then
      let p := takeDigits cs
      some (c :: p.1, p.2)
    else none

/-- Strip a literal character sequence from the front of the input. -/
def stripLit : LC → LC → Option LC
  | [], s => some s
  | _ :: _, [] => none
  | p :: ps, c :: cs => if p = c then stripLit ps cs else none

/-- The trailing group (?P<rest>-.*)? of the version regex: the leftover
input must be empty (group absent) or start with a dash (group matches
the whole leftover). -/
def restOk : LC → Option (Option LC)
  | [] => some none
  | c :: t => if c = '-' then some (some (c :: t)) else none

/-- Alternative rc NUM . ce . NUM of the modifier block (the optional rc
sub-group participating), followed by the rest group. -/
def tryRcCe (t : LC) : Option (Option LC × Option LC × Option LC) :=
  match stripLit ['r', 'c'] t with
  | none => none
  | some s1 =>
    match takeNum s1 with
    | none => none
    | some p1 =>
      match stripLit ['.', 'c', 'e', '.'] p1.2 with
      | none => none
      | some s2 =>
        match takeNum s2 with
        | none => none
        | some p2 =>
          match restOk p2.2 with
          | none => none
          | some ro => some (some p1.1, some p2.1, ro)

/-- Alternative ce . NUM of the modifier block (rc sub-group absent). -/
def tryCe (t : LC) : Option (Option LC × Option LC × Option LC) :=
  match stripLit ['c', 'e', '.'] t with
  | none => none
  | some s1 =>
    match takeNum s1 with
    | none => none
    | some p1 =>
      match restOk p1.2 with
      | none => none
      | some ro => some (none, some p1.1, ro)

/-- Alternative rc NUM of the modifier block (the rc2 group). -/
def tryRc (t : LC) : Option (Option LC × Option LC × Option LC) :=
  match stripLit ['r', 'c'] t with
  | none => none
  | some s1 =>
    match takeNum s1 with
    | none => none
    | some p1 =>
      match restOk p1.2 with
      | none => none
      | some ro => some (some p1.1, none, ro)

/-- The modifier alternatives after a leading dash, in the order the
backtracking regex engine tries them; when all fail the whole modifier
group is dropped and the dash-led text becomes the rest group, which
always succeeds. -/
def parseMods (t : LC) : Option LC × Option LC × Option LC :=
  match tryRcCe t with
  | some x => x
  | none =>
    match tryCe t with
    | some x => x
    | none =>
      match tryRc t with
      | some x => x
      | none => (none, none, some ('-' :: t))

/-- Text following the numeric core: empty, or a dash starting the
modifier block / rest group.  Anything else makes the whole regex fail. -/
def parseTail : LC → Option (Option LC × Option LC × Option LC)
  | [] => some (none, none, none)
  | c :: t => if c = '-' then some (parseMods t) else none

/-- Split off a leading dot, the separator between numeric components. -/
def dotSplit : LC → Option LC
  | [] => none
  | c :: t => if c = '.' then some t else none

/-- The dict produced by parse_version in src/run.py: the matched
substring of each named group, or none where the group did not
participate.  (The Python dict always carries all six keys.) -/
structure Version where
  major : LC
  minor : Option LC
  patch : Option LC
  rc : Option LC
  ce : Option LC
  rest : Option LC
deriving DecidableEq, Repr

/-- parse_version of src/run.py, lines 181-189: match the anchored regex
major(.minor(.patch)?)?(-((rc RC .)?ce.CE|rc RC2))?(rest)? and merge the
rc2 group into rc.  A dot after a complete numeric group must be followed
by the next numeric group or the whole match fails (nothing else can
consume the dot). -/
def parseAfterMinor (mj mi : LC) (s3 : LC) : Option Version :=
  match dotSplit s3 with
  | some s4 =>
    match takeNum s4 with
    | none => none
    | some pp =>
      match parseTail pp.2 with
      | none => none
      | some t => some ⟨mj, some mi, some pp.1, t.1, t.2.1, t.2.2⟩
  | none =>
    match parseTail s3 with
    | none => none
    | some t => some ⟨mj, some mi, none, t.1, t.2.1, t.2.2⟩

def parseAfterMajor (mj : LC) (s1 : LC) : Option Version :=
  match dotSplit s1 with
  | some s2 =>
    match takeNum s2 with
    | none => none
    | some pmi => parseAfterMinor mj pmi.1 pmi.2
  | none =>
    match parseTail s1 with
    | none => none
    | some t => some ⟨mj, none, none, t.1, t.2.1, t.2.2⟩

def parse_version_chars (s : LC) : Option Version :=
  match takeNum s with
  | none => none
  | some pm => parseAfterMajor pm.1 pm.2

def parse_version (s : String) : Option Version :=
  parse_version_chars s.data

/-- Python truthiness of a dict entry that is None or a string: None and
the empty string are falsy. -/
def truthy : Option LC → Bool
  | none => false
  | some s => !s.isEmpty

/-- str_version of src/run.py, lines 192-199, on character lists. -/
def strChars (v : Version) : LC :=
  v.major
    ++ (if truthy v.minor then '.' :: v.minor.getD [] else [])
    ++ (if truthy v.patch then '.' :: v.patch.getD [] else [])
    ++ (if truthy v.rc && truthy v.ce then
          ['-', 'r', 'c'] ++ v.rc.getD [] ++ ['.', 'c', 'e', '.'] ++ v.ce.getD []
        else [])
    ++ (if truthy v.rc && !truthy v.ce then ['-', 'r', 'c'] ++ v.rc.getD [] else [])
    ++ (if !truthy v.rc && truthy v.ce then ['-', 'c', 'e', '.'] ++ v.ce.getD [] else [])
    ++ v.rest.getD []

def str_version (v : Version) : String :=
  ⟨strChars v⟩

/-- Python int() on a decimal digit string. -/
def numOf (s : LC) : Nat :=
  s.foldl (fun a c => 10 * a + (c.toNat - 48)) 0

def numOfO (o : Option LC) : Nat :=
  numOf (o.getD [])

/-- The ce comparison block of compare_version (lines 252-256): compared
only when both identifiers carry a truthy ce. -/
def cmpCe (u v : Version) : Int :=
  if truthy u.ce && truthy v.ce then
    if numOfO u.ce < numOfO v.ce then -1
    else if numOfO v.ce < numOfO u.ce then 1
    else 0
  else 0

/-- The rc comparison block of compare_version (lines 242-250). -/
def cmpRc (u v : Version) : Int :=
  if truthy u.rc && truthy v.rc then
    if numOfO u.rc < numOfO v.rc then -1
    else if numOfO v.rc < numOfO u.rc then 1
    else cmpCe u v
  else if truthy u.rc && !truthy v.rc then -1
  else if !truthy u.rc && truthy v.rc then 1
  else cmpCe u v

/-- The patch comparison block of compare_version (lines 232-240). -/
def cmpPatch (u v : Version) : Int :=
  if truthy u.patch && truthy v.patch then
    if numOfO u.patch < numOfO v.patch then -1
    else if numOfO v.patch < numOfO u.patch then 1
    else cmpRc u v
  else if truthy u.patch && !truthy v.patch then -1
  else if !truthy u.patch && truthy v.patch then 1
  else cmpRc u v

/-- The minor comparison block of compare_version (lines 222-230). -/
def cmpMinor (u v : Version) : Int :=
  if truthy u.minor && truthy v.minor then
    if numOfO u.minor < numOfO v.minor then -1
    else if numOfO v.minor < numOfO u.minor then 1
    else cmpPatch u v
  else if truthy u.minor && !truthy v.minor then -1
  else if !truthy u.minor && truthy v.minor then 1
  else cmpPatch u v

/-- compare_version of src/run.py, lines 202-259.  The identifiers
produced by parse_version always carry all six dict keys, so of the five
disjuncts of the incompatibility test only the rest-mismatch and the two
ce-truthiness-mismatch disjuncts can fire; the two membership-test
disjuncts are identically false and are dropped here. -/
def compare_version : Option Version → Option Version → Except String Int
  | none, none => .ok 0
  | none, some _ => .ok (-1)
  | some _, none => .ok 1
  | some u, some v =>
    if u.rest ≠ v.rest ∨ (truthy u.ce ∧ ¬truthy v.ce) ∨ (¬truthy u.ce ∧ truthy v.ce) then
      .error ("Cannot compare versions " ++ str_version u ++ " and " ++ str_version v)
    else
      .ok (if numOf u.major < numOf v.major then -1
           else if numOf v.major < numOf u.major then 1
           else cmpMinor u v)

/-- The loop body of max_version (lines 262-272), with the running
"latest" made explicit. -/
def max_version_loop : Option Version → List Version → Except String (Option Version)
  | latest, [] => .ok latest
  | none, v :: rest => max_version_loop (some v) rest
  | some l, v :: rest =>
    match compare_version (some v) (some l) with
    | .error e => .error e
    | .ok c => max_version_loop (some (if 0 < c then v else l)) rest

def max_version (versions : List Version) : Except String (Option Version) :=
  max_version_loop none versions

/-- The aggregation key contributed by every parsed tag (line 395):
major + ("-ce" when ce is truthy) + (rest or ""). -/
def key1 (t : Version) : String :=
  (⟨t.major⟩ : String) ++ (if truthy t.ce then "-ce" else "") ++ (⟨t.rest.getD []⟩ : String)

/-- The aggregation key contributed by tags with a truthy minor
(line 398): major + "." + minor + ("-ce" when ce is truthy) + (rest or ""). -/
def key2 (t : Version) : String :=
  (⟨t.major⟩ : String) ++ "." ++ (⟨t.minor.getD []⟩ : String)
    ++ (if truthy t.ce then "-ce" else "") ++ (⟨t.rest.getD []⟩ : String)

/-- defaultdict(list) update: append the value to the entry of the key,
creating the entry at the end on first touch (Python dicts preserve
insertion order). -/
def addTo : List (String × List Version) → String → Version → List (String × List Version)
  | [], k, v => [(k, [v])]
  | (k', vs) :: rest, k, v =>
    if k' = k then (k', vs ++ [v]) :: rest
    else (k', vs) :: addTo rest k v

/-- src_tags_grouped of src/run.py, lines 393-398, as a function of the
raw tag list: keep the tags accepted by parse_version (the two Python
comprehensions filtering then re-parsing compose to filterMap), then run
the two grouping loops. -/
def src_tags_grouped (tags : List String) : List (String × List Version) :=
  let src_tags := tags.filterMap parse_version
  let g1 := src_tags.foldl (fun m t => addTo m (key1 t) t) []
  src_tags.foldl (fun m t => if truthy t.minor then addTo m (key2 t) t else m) g1

/-- The dict comprehension of line 399, entry by entry: serialize the
per-group maximum.  str_version(None) raises a TypeError in Python; that
is modelled by the NoneType error case (it is unreachable, every group is
non-empty by construction). -/
def latest_entries : List (String × List Version) → Except String (List (String × String))
  | [] => .ok []
  | (k, vs) :: rest =>
    match max_version vs with
    | .error e => .error e
    | .ok none => .error "NoneType has no str_version"
    | .ok (some m) =>
      match latest_entries rest with
      | .error e => .error e
      | .ok tail => .ok ((k, str_version m) :: tail)

/-- src_tags_latest of src/run.py, line 399, as a function of the raw
tag list. -/
def src_tags_latest (tags : List String) : Except String (List (String × String)) :=
  latest_entries (src_tags_grouped tags)

/-!
Order-theoretic view of compare_version.  Within one comparability class
(identical rest, matching ce truthiness) the comparator is exactly the
lexicographic comparison of a nine-entry numeric key, where an absent
component is encoded as larger than any present one.
-/

def natCmp (a b : Nat) : Int :=
  if a < b then -1 else if b < a then 1 else 0

def thenCmp (c d : Int) : Int :=
  if c = 0 then d else c

def listCmp : List Nat → List Nat → Int
  | [], _ => 0
  | _ :: _, [] => 0
  | a :: l, b :: m => thenCmp (natCmp a b) (listCmp l m)

/-- One optional-component stage of the comparator: both present compare
numerically, a present component ranks below an absent one. -/
def pairCmp (x y : Option LC) : Int :=
  if truthy x && truthy y then natCmp (numOfO x) (numOfO y)
  else if truthy x && !truthy y then -1
  else if !truthy x && truthy y then 1
  else 0

def eA (o : Option LC) : Nat := if truthy o then 0 else 1

def eB (o : Option LC) : Nat := if truthy o then numOfO o else 0

/-- The comparison key of an identifier: major, then the encoded
minor, patch, rc and ce stages. -/
def key (v : Version) : List Nat :=
  [numOf v.major,
   eA v.minor, eB v.minor,
   eA v.patch, eB v.patch,
   eA v.rc, eB v.rc,
   eA v.ce, eB v.ce]

theorem natCmp_self (a : Nat) : natCmp a a = 0 := by
  simp [natCmp]

theorem natCmp_neg (a b : Nat) : natCmp a b = -natCmp b a := by
  unfold natCmp
  split_ifs <;> omega

theorem thenCmp_zero_left (d : Int) : thenCmp 0 d = d := by
  simp [thenCmp]

theorem thenCmp_zero_right (c : Int) : thenCmp c 0 = c := by
  unfold thenCmp
  split_ifs with h
  · omega
  · rfl

theorem listCmp_refl (l : List Nat) : listCmp l l = 0 := by
  induction l with
  | nil => rfl
  | cons a t ih => simp [listCmp, natCmp_self, thenCmp_zero_left, ih]

theorem listCmp_neg (l m : List Nat) : listCmp l m = -listCmp m l := by
  induction l generalizing m with
  | nil => cases m <;> simp [listCmp]
  | cons a t ih =>
    cases m with
    | nil => simp [listCmp]
    | cons b s =>
      simp only [listCmp]
      rw [ih s, natCmp_neg a b]
      unfold thenCmp
      split_ifs <;> omega

theorem natCmp_lt {a b : Nat} (h : a < b) : natCmp a b = -1 := by
  simp [natCmp, h]

theorem natCmp_gt {a b : Nat} (h : b < a) : natCmp a b = 1 := by
  simp [natCmp, h, Nat.lt_asymm h]

theorem thenCmp_neg_one (x : Int) : thenCmp (-1) x = -1 := by
  unfold thenCmp
  norm_num

theorem thenCmp_one (x : Int) : thenCmp 1 x = 1 := by
  unfold thenCmp
  norm_num

theorem headCmp (a b : Nat) (x : Int) :
    (if a < b then (-1 : Int) else if b < a then 1 else x) = thenCmp (natCmp a b) x := by
  rcases Nat.lt_trichotomy a b with h | h | h
  · rw [natCmp_lt h, thenCmp_neg_one, if_pos h]
  · subst h
    rw [natCmp_self, thenCmp_zero_left, if_neg (lt_irrefl a), if_neg (lt_irrefl a)]
  · rw [natCmp_gt h, thenCmp_one, if_neg (Nat.lt_asymm h), if_pos h]

theorem listCmp_le_trans (l m k : List Nat)
    (h1 : l.length = m.length) (h2 : m.length = k.length)
    (hlm : listCmp l m ≤ 0) (hmk : listCmp m k ≤ 0) : listCmp l k ≤ 0 := by
  induction l generalizing m k with
  | nil => cases k <;> simp [listCmp]
  | cons a t ih =>
    cases m with
    | nil => simp at h1
    | cons b s =>
      cases k with
      | nil => simp [listCmp]
      | cons c r =>
        simp only [listCmp] at hlm hmk ⊢
        simp only [List.length_cons, Nat.succ.injEq] at h1 h2
        rcases Nat.lt_trichotomy a b with hab | hab | hab
        · rcases Nat.lt_trichotomy b c with hbc | hbc | hbc
          · rw [natCmp_lt (hab.trans hbc), thenCmp_neg_one]; omega
          · subst hbc; rw [natCmp_lt hab, thenCmp_neg_one]; omega
          · rw [natCmp_gt hbc, thenCmp_one] at hmk; omega
        · subst hab
          rw [natCmp_self, thenCmp_zero_left] at hlm
          rcases Nat.lt_trichotomy a c with hac | hac | hac
          · rw [natCmp_lt hac, thenCmp_neg_one]; omega
          · subst hac
            rw [natCmp_self, thenCmp_zero_left] at hmk ⊢
            exact ih s r h1 h2 hlm hmk
          · rw [natCmp_gt hac, thenCmp_one] at hmk; omega
        · rw [natCmp_gt hab, thenCmp_one] at hlm; omega

theorem cmpCe_pair (u v : Version) (hc : truthy u.ce = truthy v.ce) :
    cmpCe u v = pairCmp u.ce v.ce := by
  cases hv : truthy v.ce <;>
    simp [cmpCe, pairCmp, natCmp, hc, hv]

theorem cmpRc_pair (u v : Version) :
    cmpRc u v = thenCmp (pairCmp u.rc v.rc) (cmpCe u v) := by
  cases hx : truthy u.rc <;> cases hy : truthy v.rc
  · simp [cmpRc, pairCmp, hx, hy, thenCmp_zero_left]
  · simp [cmpRc, pairCmp, hx, hy, thenCmp_one]
  · simp [cmpRc, pairCmp, hx, hy, thenCmp_neg_one]
  · simp only [cmpRc, pairCmp, hx, hy, Bool.and_self, Bool.not_true, Bool.and_false,
      Bool.false_and, if_true, if_false, ite_true, ite_false]
    exact headCmp _ _ _

theorem cmpPatch_pair (u v : Version) :
    cmpPatch u v = thenCmp (pairCmp u.patch v.patch) (cmpRc u v) := by
  cases hx : truthy u.patch <;> cases hy : truthy v.patch
  · simp [cmpPatch, pairCmp, hx, hy, thenCmp_zero_left]
  · simp [cmpPatch, pairCmp, hx, hy, thenCmp_one]
  · simp [cmpPatch, pairCmp, hx, hy, thenCmp_neg_one]
  · simp only [cmpPatch, pairCmp, hx, hy, Bool.and_self, Bool.not_true, Bool.and_false,
      Bool.false_and, if_true, if_false, ite_true, ite_false]
    exact headCmp _ _ _

theorem cmpMinor_pair (u v : Version) :
    cmpMinor u v = thenCmp (pairCmp u.minor v.minor) (cmpPatch u v) := by
  cases hx : truthy u.minor <;> cases hy : truthy v.minor
  · simp [cmpMinor, pairCmp, hx, hy, thenCmp_zero_left]
  · simp [cmpMinor, pairCmp, hx, hy, thenCmp_one]
  · simp [cmpMinor, pairCmp, hx, hy, thenCmp_neg_one]
  · simp only [cmpMinor, pairCmp, hx, hy, Bool.and_self, Bool.not_true, Bool.and_false,
      Bool.false_and, if_true, if_false, ite_true, ite_false]
    exact headCmp _ _ _

theorem key_cons2 (x y : Option LC) (l m : List Nat) :
    listCmp (eA x :: eB x :: l) (eA y :: eB y :: m) = thenCmp (pairCmp x y) (listCmp l m) := by
  cases hx : truthy x <;> cases hy : truthy y <;>
    simp [listCmp, eA, eB, pairCmp, natCmp, thenCmp, hx, hy]

/-- Within one comparability class the comparator never raises and
returns exactly the lexicographic comparison of the two keys. -/
theorem compare_version_ok (u v : Version)
    (hr : u.rest = v.rest) (hc : truthy u.ce = truthy v.ce) :
    compare_version (some u) (some v) = .ok (listCmp (key u) (key v)) := by
  have hcond : ¬(u.rest ≠ v.rest ∨ (truthy u.ce ∧ ¬truthy v.ce) ∨
      (¬truthy u.ce ∧ truthy v.ce)) := by
    simp [hr, hc]
  simp only [compare_version, if_neg hcond]
  have hk : listCmp (key u) (key v) =
      thenCmp (natCmp (numOf u.major) (numOf v.major))
        (thenCmp (pairCmp u.minor v.minor)
          (thenCmp (pairCmp u.patch v.patch)
            (thenCmp (pairCmp u.rc v.rc) (pairCmp u.ce v.ce)))) := by
    show listCmp
        (numOf u.major :: eA u.minor :: eB u.minor :: eA u.patch :: eB u.patch ::
          eA u.rc :: eB u.rc :: eA u.ce :: eB u.ce :: [])
        (numOf v.major :: eA v.minor :: eB v.minor :: eA v.patch :: eB v.patch ::
          eA v.rc :: eB v.rc :: eA v.ce :: eB v.ce :: []) = _
    rw [listCmp, key_cons2, key_cons2, key_cons2, key_cons2]
    simp [listCmp, thenCmp_zero_right]
  rw [hk, headCmp, cmpMinor_pair, cmpPatch_pair, cmpRc_pair, cmpCe_pair u v hc]

/-- C2: within one comparability class (identical rest, matching
community-edition presence) the comparator is a total order: it is
reflexive (equal on identical identifiers), antisymmetric (less one way
exactly when greater the other way), and transitive on the
less-or-equal relation. -/
theorem C2_comparator_total_order (u v w : Version)
    (huv : u.rest = v.rest) (hvw : v.rest = w.rest)
    (cuv : truthy u.ce = truthy v.ce) (cvw : truthy v.ce = truthy w.ce) :
    compare_version (some u) (some u) = .ok 0
    ∧ (compare_version (some u) (some v) = .ok (-1) ↔
        compare_version (some v) (some u) = .ok 1)
    ∧ (∀ a b : Int, compare_version (some u) (some v) = .ok a → a ≤ 0 →
        compare_version (some v) (some w) = .ok b → b ≤ 0 →
        ∃ c : Int, compare_version (some u) (some w) = .ok c ∧ c ≤ 0) := by
  refine ⟨?_, ?_, ?_⟩
  · rw [compare_version_ok u u rfl rfl, listCmp_refl]
  · rw [compare_version_ok u v huv cuv, compare_version_ok v u huv.symm cuv.symm]
    have hneg := listCmp_neg (key u) (key v)
    constructor
    · intro h
      have h1 : listCmp (key u) (key v) = -1 := Except.ok.inj h
      have h2 : listCmp (key v) (key u) = 1 := by omega
      rw [h2]
    · intro h
      have h1 : listCmp (key v) (key u) = 1 := Except.ok.inj h
      have h2 : listCmp (key u) (key v) = -1 := by omega
      rw [h2]
  · intro a b ha hla hb hlb
    have h1 : listCmp (key u) (key v) = a :=
      Except.ok.inj ((compare_version_ok u v huv cuv).symm.trans ha)
    have h2 : listCmp (key v) (key w) = b :=
      Except.ok.inj ((compare_version_ok v w hvw cvw).symm.trans hb)
    refine ⟨listCmp (key u) (key w),
      compare_version_ok u w (huv.trans hvw) (cuv.trans cvw), ?_⟩
    exact listCmp_le_trans (key u) (key v) (key w) rfl rfl (by rw [h1]; exact hla) (by rw [h2]; exact hlb)

/-!
Behaviour of max_version on a comparability class.
-/

/-- Running the max_version loop with a seeded latest over a
class-uniform list succeeds and yields a member. -/
theorem max_version_loop_mem (vs : List Version) : ∀ l : Version,
    (∀ x ∈ l :: vs, ∀ y ∈ l :: vs, x.rest = y.rest ∧ truthy x.ce = truthy y.ce) →
    ∃ x ∈ l :: vs, max_version_loop (some l) vs = .ok (some x) := by
  induction vs with
  | nil =>
    intro l _
    exact ⟨l, by simp, rfl⟩
  | cons v rest ih =>
    intro l hcl
    have hvl : v.rest = l.rest ∧ truthy v.ce = truthy l.ce :=
      hcl v (by simp) l (by simp)
    have hcmp := compare_version_ok v l hvl.1 hvl.2
    have hsub : ∀ l', l' = v ∨ l' = l →
        ∀ x ∈ l' :: rest, ∀ y ∈ l' :: rest, x.rest = y.rest ∧ truthy x.ce = truthy y.ce := by
      intro l' hl' x hx y hy
      have hmem : ∀ z, z ∈ l' :: rest → z ∈ l :: v :: rest := by
        intro z hz
        rcases List.mem_cons.mp hz with hz | hz
        · rcases hl' with h | h <;> subst hz <;> subst h <;> simp
        · simp [hz]
      exact hcl x (hmem x hx) y (hmem y hy)
    by_cases hpos : 0 < listCmp (key v) (key l)
    · have step : max_version_loop (some l) (v :: rest) = max_version_loop (some v) rest := by
        simp [max_version_loop, hcmp, hpos]
      obtain ⟨x, hxmem, hx⟩ := ih v (hsub v (Or.inl rfl))
      refine ⟨x, ?_, by rw [step]; exact hx⟩
      rcases List.mem_cons.mp hxmem with h | h <;> simp [h, List.mem_cons]
    · have step : max_version_loop (some l) (v :: rest) = max_version_loop (some l) rest := by
        simp [max_version_loop, hcmp, hpos]
      obtain ⟨x, hxmem, hx⟩ := ih l (hsub l (Or.inr rfl))
      refine ⟨x, ?_, by rw [step]; exact hx⟩
      rcases List.mem_cons.mp hxmem with h | h <;> simp [h, List.mem_cons]

/-- On a non-empty class-uniform list, max_version succeeds and returns
a member of the list. -/
theorem max_version_mem (vs : List Version) (hne : vs ≠ [])
    (hcl : ∀ x ∈ vs, ∀ y ∈ vs, x.rest = y.rest ∧ truthy x.ce = truthy y.ce) :
    ∃ x ∈ vs, max_version vs = .ok (some x) := by
  cases vs with
  | nil => exact absurd rfl hne
  | cons v rest =>
    have := max_version_loop_mem rest v hcl
    exact this

/-- C8: between two comparable identifiers with fully equal component
lists, no-RC outranks RC, and among two RC-bearing identifiers the
higher RC number outranks the lower. -/
theorem C8_rc_precedence (u v : Version)
    (hmj : u.major = v.major) (hmi : u.minor = v.minor) (hpa : u.patch = v.patch)
    (hr : u.rest = v.rest) (hc : truthy u.ce = truthy v.ce) :
    (truthy u.rc = false → truthy v.rc = true →
      compare_version (some u) (some v) = .ok 1)
    ∧ (truthy u.rc = true → truthy v.rc = true → numOfO v.rc < numOfO u.rc →
      compare_version (some u) (some v) = .ok 1) := by
  have hco := compare_version_ok u v hr hc
  constructor
  · intro h1 h2
    rw [hco]
    have hl : listCmp (key u) (key v) = 1 := by
      simp [key, listCmp, hmj, hmi, hpa, natCmp_self, thenCmp_zero_left, eA, eB, h1, h2,
        natCmp, thenCmp]
    rw [hl]
  · intro h1 h2 hgt
    rw [hco]
    have hl : listCmp (key u) (key v) = 1 := by
      simp [key, listCmp, hmj, hmi, hpa, natCmp_self, thenCmp_zero_left, eA, eB, h1, h2,
        natCmp_gt hgt, thenCmp_one]
    rw [hl]

/-!
The grouping step never creates an empty group, so the per-key maximum
of the pipeline is fed non-empty lists only.
-/

theorem addTo_ne (m : List (String × List Version)) (k : String) (v : Version)
    (h : ∀ e ∈ m, e.2 ≠ []) : ∀ e ∈ addTo m k v, e.2 ≠ [] := by
  induction m with
  | nil =>
    intro e he
    simp only [addTo, List.mem_singleton] at he
    subst he
    simp
  | cons hd tl ih =>
    intro e he
    obtain ⟨k', vs⟩ := hd
    simp only [addTo] at he
    by_cases hk : k' = k
    · rw [if_pos hk] at he
      rcases List.mem_cons.mp he with rfl | he
      · simp
      · exact h e (List.mem_cons_of_mem _ he)
    · rw [if_neg hk] at he
      rcases List.mem_cons.mp he with rfl | he
      · exact h _ (by simp)
      · exact ih (fun e' he' => h e' (List.mem_cons_of_mem _ he')) e he

theorem foldl_addTo_ne (f : Version → String) (ts : List Version) :
    ∀ m, (∀ e ∈ m, e.2 ≠ []) →
      ∀ e ∈ ts.foldl (fun m t => addTo m (f t) t) m, e.2 ≠ [] := by
  induction ts with
  | nil =>
    intro m hm
    simpa using hm
  | cons t ts ih =>
    intro m hm
    exact ih _ (addTo_ne m (f t) t hm)

theorem foldl_addTo_minor_ne (ts : List Version) :
    ∀ m, (∀ e ∈ m, e.2 ≠ []) →
      ∀ e ∈ ts.foldl (fun m t => if truthy t.minor then addTo m (key2 t) t else m) m,
        e.2 ≠ [] := by
  induction ts with
  | nil =>
    intro m hm
    simpa using hm
  | cons t ts ih =>
    intro m hm
    by_cases ht : truthy t.minor
    · simp only [List.foldl_cons, if_pos ht]
      exact ih _ (addTo_ne m (key2 t) t hm)
    · simp only [List.foldl_cons, if_neg ht]
      exact ih _ hm

theorem src_tags_grouped_ne (tags : List String) :
    ∀ e ∈ src_tags_grouped tags, e.2 ≠ [] :=
  foldl_addTo_minor_ne (tags.filterMap parse_version) _
    (foldl_addTo_ne key1 (tags.filterMap parse_version) [] (by simp))

theorem latest_entries_ok (gs : List (String × List Version))
    (h : ∀ e ∈ gs, ∃ x ∈ e.2, max_version e.2 = .ok (some x)) :
    ∃ out, latest_entries gs = .ok out := by
  induction gs with
  | nil => exact ⟨[], rfl⟩
  | cons g tl ih =>
    obtain ⟨k, vs⟩ := g
    obtain ⟨x, hxm, hx⟩ := h (k, vs) (by simp)
    obtain ⟨out, hout⟩ := ih (fun e he => h e (List.mem_cons_of_mem _ he))
    exact ⟨(k, str_version x) :: out, by simp [latest_entries, hx, hout]⟩

/-- C6 (amended): when every two parsed identifiers grouped under the
same aggregation key share rest and community-edition presence, no
comparator invocation inside the per-key maxima raises, and the
pipeline succeeds. -/
theorem C6_uniform_groups_no_raise (tags : List String)
    (h : ∀ e ∈ src_tags_grouped tags, ∀ x ∈ e.2, ∀ y ∈ e.2,
        x.rest = y.rest ∧ truthy x.ce = truthy y.ce) :
    ∃ out, src_tags_latest tags = .ok out := by
  unfold src_tags_latest
  apply latest_entries_ok
  intro e he
  exact max_version_mem e.2 (src_tags_grouped_ne tags e he) (h e he)

/-- C6 counterexample: the claim that the comparator error branch is
unreachable for every input tag list is false: the tags 1-ce (rest
"-ce", no CE number) and 1-ce.5 (CE number 5, no rest) land under the
same key "1-ce" while being incomparable, so the pipeline raises. -/
theorem C6_counterexample :
    src_tags_latest ["1-ce", "1-ce.5"] =
      .error "Cannot compare versions 1-ce.5 and 1-ce" := by
  rfl

/-- C10 (amended): max_version of the empty list is None without any
error, and on a non-empty list whose members pairwise share rest and
community-edition presence it returns a member of the list. -/
theorem C10_max_version_empty_and_member (vs : List Version) (hne : vs ≠ [])
    (hcl : ∀ x ∈ vs, ∀ y ∈ vs, x.rest = y.rest ∧ truthy x.ce = truthy y.ce) :
    max_version ([] : List Version) = .ok none
    ∧ ∃ x ∈ vs, max_version vs = .ok (some x) :=
  ⟨rfl, max_version_mem vs hne hcl⟩

/-- C10 counterexample: on a non-empty list mixing comparability
classes, max_version raises instead of returning a member. -/
theorem C10_counterexample :
    max_version (["1-alpine", "1-debian"].filterMap parse_version) =
      .error "Cannot compare versions 1-debian and 1-alpine" := by
  rfl

/-!
Parse/serialize round trip: serializing any parse result reproduces the
input string character for character, because every regex group's
matched text is stored verbatim and str_version re-emits the groups in
match order.
-/

theorem truthy_some {x : LC} (h : x ≠ []) : truthy (some x) = true := by
  cases x with
  | nil => exact absurd rfl h
  | cons c cs => rfl

theorem takeDigits_append (s : LC) : (takeDigits s).1 ++ (takeDigits s).2 = s := by
  induction s with
  | nil => rfl
  | cons c cs ih =>
    by_cases h : c.isDigit
    · simp [takeDigits, h, ih]
    · simp [takeDigits, h]

theorem takeNum_parts {s : LC} {p : LC × LC} (h : takeNum s = some p) :
    p.1 ++ p.2 = s ∧ p.1 ≠ [] := by
  obtain ⟨p1, p2⟩ := p
  cases s with
  | nil => simp [takeNum] at h
  | cons c cs =>
    by_cases h0 : c = '0'
    · simp only [takeNum, if_pos h0, Option.some.injEq, Prod.mk.injEq] at h
      obtain ⟨h1, h2⟩ := h
      subst h1
      subst h2
      simp
    · by_cases hd : c.isDigit
      · simp only [takeNum, if_neg h0, if_pos hd, Option.some.injEq, Prod.mk.injEq] at h
        obtain ⟨h1, h2⟩ := h
        subst h1
        subst h2
        simp [takeDigits_append]
      · simp [takeNum, h0, hd] at h

theorem stripLit_parts {p s r : LC} (h : stripLit p s = some r) : p ++ r = s := by
  induction p generalizing s with
  | nil =>
    simp only [stripLit, Option.some.injEq] at h
    simp [h]
  | cons a ps ih =>
    cases s with
    | nil => simp [stripLit] at h
    | cons c cs =>
      by_cases hac : a = c
      · simp only [stripLit, if_pos hac] at h
        simp [hac, ih h]
      · simp [stripLit, hac] at h

theorem restOk_parts {u : LC} {ro : Option LC} (h : restOk u = some ro) :
    ro.getD [] = u := by
  cases u with
  | nil =>
    simp only [restOk, Option.some.injEq] at h
    simp [← h]
  | cons c t =>
    by_cases hc : c = '-'
    · simp only [restOk, if_pos hc, Option.some.injEq] at h
      simp [← h]
    · simp [restOk, hc] at h

/-- The tail part of str_version: rc / ce modifier block followed by the
rest text. -/
def tailChars (a b ro : Option LC) : LC :=
  (if truthy a && truthy b then
      ['-', 'r', 'c'] ++ a.getD [] ++ ['.', 'c', 'e', '.'] ++ b.getD []
    else [])
  ++ (if truthy a && !truthy b then ['-', 'r', 'c'] ++ a.getD [] else [])
  ++ (if !truthy a && truthy b then ['-', 'c', 'e', '.'] ++ b.getD [] else [])
  ++ ro.getD []

theorem strChars_decomp (v : Version) :
    strChars v = v.major
      ++ (if truthy v.minor then '.' :: v.minor.getD [] else [])
      ++ (if truthy v.patch then '.' :: v.patch.getD [] else [])
      ++ tailChars v.rc v.ce v.rest := by
  simp [strChars, tailChars, List.append_assoc]

theorem tryRcCe_parts {t : LC} {a b c : Option LC} (h : tryRcCe t = some (a, b, c)) :
    ∃ R C, a = some R ∧ b = some C ∧ R ≠ [] ∧ C ≠ [] ∧
      ['r', 'c'] ++ (R ++ (['.', 'c', 'e', '.'] ++ (C ++ c.getD []))) = t := by
  unfold tryRcCe at h
  split at h
  · simp at h
  · rename_i s1 hs1
    split at h
    · simp at h
    · rename_i p1 hp1
      split at h
      · simp at h
      · rename_i s2 hs2
        split at h
        · simp at h
        · rename_i p2 hp2
          split at h
          · simp at h
          · rename_i ro hro
            simp only [Option.some.injEq, Prod.mk.injEq] at h
            obtain ⟨ha, hb, hc⟩ := h
            obtain ⟨e1, n1⟩ := takeNum_parts hp1
            obtain ⟨e2, n2⟩ := takeNum_parts hp2
            refine ⟨p1.1, p2.1, ha.symm, hb.symm, n1, n2, ?_⟩
            rw [← hc, restOk_parts hro, e2, stripLit_parts hs2, e1,
              stripLit_parts hs1]

theorem tryCe_parts {t : LC} {a b c : Option LC} (h : tryCe t = some (a, b, c)) :
    ∃ C, a = none ∧ b = some C ∧ C ≠ [] ∧
      ['c', 'e', '.'] ++ (C ++ c.getD []) = t := by
  unfold tryCe at h
  split at h
  · simp at h
  · rename_i s1 hs1
    split at h
    · simp at h
    · rename_i p1 hp1
      split at h
      · simp at h
      · rename_i ro hro
        simp only [Option.some.injEq, Prod.mk.injEq] at h
        obtain ⟨ha, hb, hc⟩ := h
        obtain ⟨e1, n1⟩ := takeNum_parts hp1
        refine ⟨p1.1, ha.symm, hb.symm, n1, ?_⟩
        rw [← hc, restOk_parts hro, e1, stripLit_parts hs1]

theorem tryRc_parts {t : LC} {a b c : Option LC} (h : tryRc t = some (a, b, c)) :
    ∃ R, a = some R ∧ b = none ∧ R ≠ [] ∧
      ['r', 'c'] ++ (R ++ c.getD []) = t := by
  unfold tryRc at h
  split at h
  · simp at h
  · rename_i s1 hs1
    split at h
    · simp at h
    · rename_i p1 hp1
      split at h
      · simp at h
      · rename_i ro hro
        simp only [Option.some.injEq, Prod.mk.injEq] at h
        obtain ⟨ha, hb, hc⟩ := h
        obtain ⟨e1, n1⟩ := takeNum_parts hp1
        refine ⟨p1.1, ha.symm, hb.symm, n1, ?_⟩
        rw [← hc, restOk_parts hro, e1, stripLit_parts hs1]

theorem parseMods_recon {t : LC} {a b c : Option LC} (h : parseMods t = (a, b, c)) :
    tailChars a b c = '-' :: t := by
  unfold parseMods at h
  split at h
  · rename_i x h1
    rw [h] at h1
    obtain ⟨R, C, ha, hb, hR, hC, heq⟩ := tryRcCe_parts h1
    subst ha
    subst hb
    simp [tailChars, truthy_some hR, truthy_some hC, ← heq]
  · rename_i h1
    split at h
    · rename_i x h2
      rw [h] at h2
      obtain ⟨C, ha, hb, hC, heq⟩ := tryCe_parts h2
      subst ha
      subst hb
      simp [tailChars, truthy, truthy_some hC, hC, ← heq]
    · rename_i h2
      split at h
      · rename_i x h3
        rw [h] at h3
        obtain ⟨R, ha, hb, hR, heq⟩ := tryRc_parts h3
        subst ha
        subst hb
        simp [tailChars, truthy, truthy_some hR, hR, ← heq]
      · rename_i h3
        obtain ⟨rfl, rfl, rfl⟩ : none = a ∧ none = b ∧ some ('-' :: t) = c := by
          simpa [Prod.mk.injEq] using h
        simp [tailChars, truthy]

theorem parseTail_recon {s : LC} {a b c : Option LC}
    (h : parseTail s = some (a, b, c)) : tailChars a b c = s := by
  cases s with
  | nil =>
    simp only [parseTail, Option.some.injEq, Prod.mk.injEq] at h
    obtain ⟨ha, hb, hc⟩ := h
    subst ha
    subst hb
    subst hc
    simp [tailChars, truthy]
  | cons ch t =>
    by_cases hc : ch = '-'
    · simp only [parseTail, if_pos hc, Option.some.injEq] at h
      subst hc
      exact parseMods_recon h
    · simp [parseTail, hc] at h

theorem dotSplit_parts {s t : LC} (h : dotSplit s = some t) : s = '.' :: t := by
  cases s with
  | nil => simp [dotSplit] at h
  | cons c cs =>
    by_cases hc : c = '.'
    · simp only [dotSplit, if_pos hc, Option.some.injEq] at h
      rw [hc, h]
    · simp [dotSplit, hc] at h

theorem parseAfterMinor_recon {mj mi s3 : LC} {v : Version}
    (h : parseAfterMinor mj mi s3 = some v) (hmi : mi ≠ []) :
    strChars v = mj ++ ('.' :: mi) ++ s3 := by
  unfold parseAfterMinor at h
  split at h
  · rename_i s4 hd
    split at h
    · simp at h
    · rename_i pp hpp
      split at h
      · simp at h
      · rename_i t ht
        obtain ⟨e1, n1⟩ := takeNum_parts hpp
        simp only [Option.some.injEq] at h
        subst h
        rw [strChars_decomp]
        simp only [truthy_some hmi, truthy_some n1, if_pos rfl, Option.getD_some]
        obtain ⟨ta, tb, tc⟩ := t
        rw [parseTail_recon ht, dotSplit_parts hd, ← e1]
        simp [List.append_assoc]
  · rename_i hd
    split at h
    · simp at h
    · rename_i t ht
      simp only [Option.some.injEq] at h
      subst h
      rw [strChars_decomp]
      simp only [truthy_some hmi, if_pos rfl, Option.getD_some, truthy]
      obtain ⟨ta, tb, tc⟩ := t
      rw [parseTail_recon ht]
      simp [hmi, List.append_assoc]

theorem parseAfterMajor_recon {mj s1 : LC} {v : Version}
    (h : parseAfterMajor mj s1 = some v) : strChars v = mj ++ s1 := by
  unfold parseAfterMajor at h
  split at h
  · rename_i s2 hd
    split at h
    · simp at h
    · rename_i pmi hpmi
      obtain ⟨e1, n1⟩ := takeNum_parts hpmi
      rw [parseAfterMinor_recon h n1, dotSplit_parts hd, ← e1]
      simp [List.append_assoc]
  · rename_i hd
    split at h
    · simp at h
    · rename_i t ht
      simp only [Option.some.injEq] at h
      subst h
      rw [strChars_decomp]
      simp only [truthy]
      obtain ⟨ta, tb, tc⟩ := t
      rw [parseTail_recon ht]
      simp

theorem parse_version_chars_recon {s : LC} {v : Version}
    (h : parse_version_chars s = some v) : strChars v = s := by
  unfold parse_version_chars at h
  split at h
  · simp at h
  · rename_i pm hpm
    obtain ⟨e1, _⟩ := takeNum_parts hpm
    rw [parseAfterMajor_recon h, e1]

/-- C7: for every string accepted by the parser, serializing the
resulting identifier reproduces the input, so re-parsing it is accepted
again and yields the identical identifier (same components,
releaseCandidate, communityEdition and rest fields). -/
theorem C7_parse_str_version_roundtrip (s : String) (v : Version)
    (h : parse_version s = some v) :
    str_version v = s ∧ parse_version (str_version v) = some v := by
  have hrec : strChars v = s.data := parse_version_chars_recon h
  constructor
  · show (⟨strChars v⟩ : String) = s
    rw [hrec]
  · show parse_version_chars (str_version v).data = some v
    have hd : (str_version v).data = strChars v := rfl
    rw [hd, hrec]
    exact h

/-- C1: on the input tag set 14.10.2, 14.10.3, 14.11.1, 13.14.0 the
pipeline (parse, group, per-key maximum, serialize) produces exactly the
five-entry map 14 to 14.11.1, 13 to 13.14.0, 14.10 to 14.10.3, 14.11 to
14.11.1, 13.14 to 13.14.0, and no other keys. -/
theorem C1_scenario_pipeline :
    src_tags_latest ["14.10.2", "14.10.3", "14.11.1", "13.14.0"] =
      .ok [("14", "14.11.1"), ("13", "13.14.0"), ("14.10", "14.10.3"),
           ("14.11", "14.11.1"), ("13.14", "13.14.0")] := by
  rfl

/-- C3 evaluation at the failing input: a successfully parsed identifier
with three numeric components contributes only the two keys 1 and 1.2 to
the aggregate map, not one key per truncation length; in particular the
full-specificity key 1.2.3 is never created. -/
theorem C3_three_component_tag_two_keys :
    (src_tags_grouped ["1.2.3"]).map Prod.fst = ["1", "1.2"] := by
  rfl

/-- C4 evaluation at the failing inputs: the parser of src/run.py caps
the numeric core at three components, so 1.2.3.4 and 1.2.3.4.5 are
rejected even though every component is a well-formed non-negative
integer without leading zeros. -/
theorem C4_parser_rejects_four_components :
    parse_version "1.2.3.4" = none ∧ parse_version "1.2.3.4.5" = none :=
  ⟨rfl, rfl⟩

/-- C5 evaluation at the failing input: compare_version of src/run.py
takes no specificity-policy input at all and unconditionally ranks the
shorter identifier greater, so with inverseSpecificityOrder requested
the result is still greater (1) instead of less (-1). -/
theorem C5_shorter_always_greater_no_policy_input :
    compare_version (parse_version "14") (parse_version "14.10") = .ok 1 := by
  rfl

/-- C9 evaluation at the failing input: parse_version of src/run.py has
no prefix or suffix parameters; with prefix v and suffix -alpine
configured the claim expects v14.10.2-alpine to parse, but the parser
rejects it and the pipeline on the two prefixed tags returns the empty
map. -/
theorem C9_no_prefix_suffix_handling :
    parse_version "v14.10.2-alpine" = none
    ∧ src_tags_latest ["v14.10.2-alpine", "v14.10.3-alpine"] = .ok [] :=
  ⟨rfl, rfl⟩

theorem C2_comparator_total_order_witness :
    compare_version (some ⟨['1'], none, none, none, none, none⟩)
      (some ⟨['1'], none, none, none, none, none⟩) = .ok 0 :=
  (C2_comparator_total_order ⟨['1'], none, none, none, none, none⟩
    ⟨['2'], none, none, none, none, none⟩ ⟨['3'], none, none, none, none, none⟩
    rfl rfl rfl rfl).1

theorem C6_uniform_groups_no_raise_witness :
    ∃ out, src_tags_latest ["1.2.3", "1.2.4"] = .ok out :=
  C6_uniform_groups_no_raise ["1.2.3", "1.2.4"] (by decide)

theorem C7_parse_str_version_roundtrip_witness :
    str_version ⟨['1', '4'], some ['1', '0'], some ['2'], some ['1'], none, none⟩ =
      "14.10.2-rc1"
    ∧ parse_version
        (str_version ⟨['1', '4'], some ['1', '0'], some ['2'], some ['1'], none, none⟩) =
      some ⟨['1', '4'], some ['1', '0'], some ['2'], some ['1'], none, none⟩ :=
  C7_parse_str_version_roundtrip "14.10.2-rc1"
    ⟨['1', '4'], some ['1', '0'], some ['2'], some ['1'], none, none⟩ rfl

theorem C8_rc_precedence_witness :
    compare_version (some ⟨['1'], none, none, some ['2'], none, none⟩)
      (some ⟨['1'], none, none, some ['1'], none, none⟩) = .ok 1 :=
  (C8_rc_precedence ⟨['1'], none, none, some ['2'], none, none⟩
    ⟨['1'], none, none, some ['1'], none, none⟩ rfl rfl rfl rfl rfl).2 rfl rfl (by decide)

theorem C10_max_version_empty_and_member_witness :
    max_version ([] : List Version) = .ok none
    ∧ ∃ x ∈ [(⟨['7'], none, none, none, none, none⟩ : Version)],
        max_version [⟨['7'], none, none, none, none, none⟩] = .ok (some x) :=
  C10_max_version_empty_and_member [⟨['7'], none, none, none, none, none⟩]
    (by decide) (by decide)
